import Mathlib

/-!
# formcrypt.go: key lifecycle, wire encoding and session-bound key store

A shallow embedding of `formcrypt.go` (package `formcrypt`) and of the submit
handler of `_example/main.go`.

Conventions of the embedding:

* a Go `string` or `[]byte` is a `List Byte`, a byte is a `Fin 256`;
* a Go function returning `(T, error)` returns a pair `T × Option GoError`
  (`none` is the `nil` error);
* a Go function that can panic returns in `Except GoPanic`;
* a method with a pointer receiver returns the new value of the receiver;
* the calls into `encoding/hex`, `math/big`, `crypto/rsa`, `gin` and
  `gin-contrib/sessions` are modelled in the namespaces `hex`, `big`, `rsa`
  and `sessions` by the functional behaviour these libraries document.
-/

set_option linter.dupNamespace false

namespace formcrypt

/-- A Go `byte`. -/
abbrev Byte := Fin 256

/-- A Go `string` (or `[]byte`): a finite sequence of bytes. -/
abbrev GoString := List Byte

/-- The run-time panics that the modelled code can raise. -/
inductive GoPanic
  /-- A method call or field access through a nil pointer or nil interface. -/
  | nilPointerDereference
  /-- The panic of `gin.Context.MustGet` on a key that is not set. -/
  | missingContextKey
  /-- A failed type assertion `x.(T)`. -/
  | interfaceConversion
  deriving DecidableEq, Repr

/-- The values of Go's `error` interface that the modelled code can return. -/
inductive GoError
  /-- The error of `Generate` on a key that is already generated:
  `errors.New("formcrypt.go: attempt to generate a key twice was denied")`. -/
  | generateTwice
  /-- The error of `Load` on an empty slot:
  `errors.New("no key stored in session")`. -/
  | noKeyStored
  /-- The error `hex.InvalidByteError(b)`. -/
  | hexInvalidByte (b : Byte)
  /-- The error `hex.ErrLength`. -/
  | hexErrLength
  /-- The error `rsa.ErrDecryption`. -/
  | rsaErrDecryption
  /-- The errors of `rsa.checkPub` (missing modulus, exponent out of range). -/
  | rsaErrPublicKey
  /-- Any other error of a collaborator (`rsa.GenerateKey`, `Session.Save`). -/
  | collaborator (code : Nat)
  deriving DecidableEq, Repr

/-! ## `encoding/hex` -/

namespace hex

/-- The table `hextable = "0123456789abcdef"`. -/
def hextable : List Byte :=
  [48, 49, 50, 51, 52, 53, 54, 55, 56, 57, 97, 98, 99, 100, 101, 102]

/-- The table lookup `hextable[v]`. -/
def hexDigit (v : Nat) : Byte := hextable.getD v 0

/-- The function `hex.EncodeToString`: for every byte `v` of the input the two
characters `hextable[v>>4]`, `hextable[v&0x0f]`. -/
def EncodeToString : List Byte → GoString
  | [] => []
  | v :: rest => hexDigit (v.val / 16) :: hexDigit (v.val % 16) :: EncodeToString rest

/-- The function `hex.fromHexChar`: the value of a hexadecimal character, `none`
where Go returns `(0, false)`. -/
def fromHexChar (c : Byte) : Option Nat :=
  if 48 ≤ c.val ∧ c.val ≤ 57 then some (c.val - 48)
  else if 97 ≤ c.val ∧ c.val ≤ 102 then some (c.val - 97 + 10)
  else if 65 ≤ c.val ∧ c.val ≤ 70 then some (c.val - 65 + 10)
  else none

/-- The loop of `hex.Decode`: pairs of characters are decoded into `dst`; an
invalid character stops the loop with `InvalidByteError`, a trailing single
character gives `InvalidByteError` when it is invalid and `ErrLength` otherwise. -/
def decodeLoop : GoString → List Byte → List Byte × Option GoError
  | a :: b :: rest, dst =>
    match fromHexChar a with
    | none => (dst, some (GoError.hexInvalidByte a))
    | some x =>
      match fromHexChar b with
      | none => (dst, some (GoError.hexInvalidByte b))
      | some y => decodeLoop rest (dst ++ [Fin.ofNat (x * 16 + y)])
  | [a], dst =>
    match fromHexChar a with
    | none => (dst, some (GoError.hexInvalidByte a))
    | some _ => (dst, some GoError.hexErrLength)
  | [], dst => (dst, none)

/-- The function `hex.DecodeString`: the bytes decoded so far and the error. -/
def DecodeString (s : GoString) : List Byte × Option GoError := decodeLoop s []

end hex

/-! ## `math/big` -/

namespace big

/-- Big-endian base-256 digits of `n` pushed in front of `acc`; `fuel` bounds
the number of digits. -/
def bytesAux : Nat → Nat → List Byte → List Byte
  | 0, _, acc => acc
  | fuel + 1, n, acc =>
    if n = 0 then acc else bytesAux fuel (n / 256) (Fin.ofNat (n % 256) :: acc)

/-- The big-endian bytes of a natural number, without leading zero bytes (the
empty list for zero). -/
def natBytes (n : Nat) : List Byte := bytesAux n n []

/-- The method `(*big.Int).Bytes` on a non-nil receiver: the absolute value as a
big-endian byte slice. -/
def Bytes (x : Int) : List Byte := natBytes x.natAbs

/-- The method `(*big.Int).SetBytes`: the big-endian unsigned integer of a byte
slice. -/
def SetBytes (buf : List Byte) : Nat := buf.foldl (fun acc b => acc * 256 + b.val) 0

/-- The number of bits of `n`; `fuel` bounds the number of bits. -/
def bitLenAux : Nat → Nat → Nat
  | 0, _ => 0
  | fuel + 1, n => if n = 0 then 0 else bitLenAux fuel (n / 2) + 1

/-- The method `(*big.Int).BitLen`: the length of the absolute value in bits. -/
def BitLen (x : Int) : Nat := bitLenAux x.natAbs x.natAbs

/-- Square-and-multiply modular exponentiation; `fuel` bounds the number of
bits of the exponent. -/
def modExpAux : Nat → Nat → Nat → Nat → Nat
  | 0, _, _, m => 1 % m
  | fuel + 1, b, e, m =>
    if e = 0 then 1 % m
    else
      let h := modExpAux fuel (b * b % m) (e / 2) m
      if e % 2 = 1 then b * h % m else h

/-- The method `(*big.Int).Exp` with a positive modulus and a non-negative
exponent: `b ^ e mod m`. -/
def modExp (b e m : Nat) : Nat := modExpAux e b e m

end big

/-! ## `crypto/rsa` -/

namespace rsa

/-- The struct `rsa.PublicKey`; `N` is a `*big.Int` and may be nil. -/
structure PublicKey where
  N : Option Int
  E : Int
  deriving DecidableEq, Repr

/-- The struct `rsa.PrivateKey`. The field `Precomputed` holds values derived
from the others and is left out. -/
structure PrivateKey where
  PublicKey : PublicKey
  D : Option Int
  Primes : List Int
  deriving DecidableEq, Repr

/-- The zero value `rsa.PrivateKey{}`. -/
def zeroPrivateKey : PrivateKey := ⟨⟨none, 0⟩, none, []⟩

/-- The function `rsa.checkPub`. -/
def checkPub (pub : PublicKey) : Option GoError :=
  match pub.N with
  | none => some GoError.rsaErrPublicKey
  | some _ =>
    if pub.E < 2 then some GoError.rsaErrPublicKey
    else if pub.E > 2 ^ 31 - 1 then some GoError.rsaErrPublicKey
    else none

/-- The method `(*PublicKey).Size` on a key with modulus `n`: the length of the
modulus in bytes. -/
def Size (n : Int) : Nat := (big.BitLen n + 7) / 8

/-- The function `leftPad`: `input` left-padded with zero bytes to `size`
bytes (the last `size` bytes when it is longer). -/
def leftPad (input : List Byte) (size : Nat) : List Byte :=
  List.replicate (size - input.length) 0 ++ input.drop (input.length - size)

/-- The scan of `decryptPKCS1v15` over `em[2:]`: the offset in `em` of the first
zero byte at or after offset `i`, `none` when there is none. -/
def findZero : List Byte → Nat → Option Nat
  | [], _ => none
  | b :: rest, i => if b = 0 then some i else findZero rest (i + 1)

/-- The unpadding of `decryptPKCS1v15` and `DecryptPKCS1v15`: `em` must start
with the bytes 0 and 2, hold a zero byte at an offset of at least `2 + 8`, and
the message is what follows that zero byte. -/
def unpad (em : List Byte) : List Byte × Option GoError :=
  match em with
  | b0 :: b1 :: rest =>
    match findZero rest 2 with
    | none => ([], some GoError.rsaErrDecryption)
    | some index =>
      if b0 = 0 ∧ b1 = 2 ∧ 2 + 8 ≤ index then (em.drop (index + 1), none)
      else ([], some GoError.rsaErrDecryption)
  | _ => ([], some GoError.rsaErrDecryption)

/-- The method `(*rsa.PrivateKey).Decrypt` with `opts == nil`, that is
`rsa.DecryptPKCS1v15`: check the public key, refuse a modulus shorter than 11
bytes, refuse a ciphertext integer above the modulus, compute `c ^ D mod N`,
left-pad to the size of the modulus and remove the PKCS #1 v1.5 padding.
Blinding and the CRT shortcut do not change the value on a key made by
`rsa.GenerateKey` and are not modelled; a nil `D` is dereferenced by `Exp`. -/
def DecryptPKCS1v15 (priv : PrivateKey) (ciphertext : List Byte) :
    Except GoPanic (List Byte × Option GoError) :=
  match checkPub priv.PublicKey, priv.PublicKey.N with
  | some err, _ => Except.ok ([], some err)
  | none, none => Except.ok ([], some GoError.rsaErrPublicKey)
  | none, some n =>
    let k := Size n
    if k < 11 then Except.ok ([], some GoError.rsaErrDecryption)
    else
      let c := big.SetBytes ciphertext
      if (c : Int) > n then Except.ok ([], some GoError.rsaErrDecryption)
      else if n = 0 then Except.ok ([], some GoError.rsaErrDecryption)
      else
        match priv.D with
        | none => Except.error GoPanic.nilPointerDereference
        | some d =>
          let m := big.modExp c d.toNat n.natAbs
          Except.ok (unpad (leftPad (big.natBytes m) k))

end rsa

/-! ## `formcrypt.go`: keys -/

/-- The struct `Key`. -/
structure Key where
  BitSize : Int
  Key : rsa.PrivateKey
  generated : Bool
  deriving DecidableEq, Repr

/-- The zero value `Key{}`. -/
def emptyKey : Key := ⟨0, rsa.zeroPrivateKey, false⟩

/-- The method `(*Key).Generate`. The argument `generateKey` is the outcome of
`rsa.GenerateKey(rand.Reader, ·)` for the randomness of this call. The result
is the key after the call and the returned error. -/
def Generate (generateKey : Int → Except GoError rsa.PrivateKey) (key : Key) :
    Key × Option GoError :=
  if key.generated then
    (key, some GoError.generateTwice)
  else
    match generateKey key.BitSize with
    | Except.error err => (key, some err)
    | Except.ok rsaKey => (⟨key.BitSize, rsaKey, true⟩, none)

/-- The byte `':'`. -/
def colon : Byte := 58

/-- The method `(*Key).GetPKHexString`. Calling `Bytes` on the nil modulus of a
key that holds no RSA key dereferences a nil pointer. -/
def GetPKHexString (key : Key) : Except GoPanic GoString :=
  match key.Key.PublicKey.N with
  | none => Except.error GoPanic.nilPointerDereference
  | some N =>
    let n := big.Bytes N
    let e := big.Bytes key.Key.PublicKey.E
    Except.ok (hex.EncodeToString n ++ [colon] ++ hex.EncodeToString e)

/-- The method `(*Key).Decrypt`. The argument `rsaDecrypt` is the method
`key.Key.Decrypt(rand.Reader, ·, nil)` of `crypto/rsa`. -/
def Decrypt (rsaDecrypt : rsa.PrivateKey → List Byte → Except GoPanic (List Byte × Option GoError))
    (key : Key) (dataString : GoString) : Except GoPanic (GoString × Option GoError) :=
  match hex.DecodeString dataString with
  | (_, some err) => Except.ok ([], some err)
  | (data, none) =>
    match rsaDecrypt key.Key data with
    | Except.error p => Except.error p
    | Except.ok (_, some err) => Except.ok ([], some err)
    | Except.ok (plaintext, none) => Except.ok (plaintext, none)

/-! ## `gin` and `gin-contrib/sessions` -/

/-- The struct `Engine`. -/
structure Engine where
  SessionName : String
  deriving DecidableEq, Repr

namespace sessions

/-- The state of one `sessions.Session` as far as this package uses it: the
value stored under `DefaultSessionKey` (a nil interface or a missing entry is
`none`; only `Store` and `Void` write this entry, so a non-nil value is
a `Key`), the `written` flag, and `commit`, the result that the store of the
host gives when it saves the session with a given value in that entry. -/
structure Session where
  slot : Option Key
  written : Bool
  commit : Option Key → Option GoError

/-- The method `Session.Get(DefaultSessionKey)`. -/
def Session.Get (s : Session) : Option Key := s.slot

/-- The method `Session.Set(DefaultSessionKey, val)`: the value is set and the
session is marked as written. -/
def Session.Set (s : Session) (val : Option Key) : Session :=
  ⟨val, true, s.commit⟩

/-- The method `Session.Save()`: a written session is handed to the store;
`written` is reset when the store reports no error. -/
def Session.Save (s : Session) : Session × Option GoError :=
  if s.written then
    match s.commit s.slot with
    | none => (⟨s.slot, false, s.commit⟩, none)
    | some e => (s, some e)
  else (s, none)

/-- The value under `sessions.DefaultKey` in `gin.Context.Keys`: nothing (no
session middleware ran), one session (`sessions.Sessions`) or a map of named
sessions (`sessions.SessionsMany`). -/
inductive Entry
  | absent
  | single (s : Session)
  | many (m : String → Option Session)

end sessions

/-- The part of `gin.Context` that the package reads: the sessions entry, and
the `Engine` that the middleware of `InitializeEngine` puts under
`DefaultKey`. -/
structure Context where
  sessions : sessions.Entry
  engine : Option Engine

/-- The function `getSession`. With `isMany` the session name is first read
with `c.MustGet(DefaultKey).(Engine)`, then `sessions.DefaultMany` looks the
name up (a missing name gives a nil `Session`); otherwise `sessions.Default`.
`MustGet` panics on a missing key and the type assertions of `Default` and
`DefaultMany` panic on an entry of the other kind. -/
def getSession (c : Context) (isMany : Bool) : Except GoPanic (Option sessions.Session) :=
  if isMany then
    match c.engine with
    | none => Except.error GoPanic.missingContextKey
    | some engine =>
      match c.sessions with
      | sessions.Entry.absent => Except.error GoPanic.missingContextKey
      | sessions.Entry.single _ => Except.error GoPanic.interfaceConversion
      | sessions.Entry.many m => Except.ok (m engine.SessionName)
  else
    match c.sessions with
    | sessions.Entry.absent => Except.error GoPanic.missingContextKey
    | sessions.Entry.many _ => Except.error GoPanic.interfaceConversion
    | sessions.Entry.single s => Except.ok (some s)

/-- The context after the session that `getSession c isMany` returns has been
changed to `s`: sessions are pointers in Go, here the change is written back. -/
def putSession (c : Context) (isMany : Bool) (s : sessions.Session) : Context :=
  if isMany then
    match c.engine, c.sessions with
    | some engine, sessions.Entry.many m =>
      ⟨sessions.Entry.many (Function.update m engine.SessionName (some s)), c.engine⟩
    | _, _ => c
  else
    match c.sessions with
    | sessions.Entry.single _ => ⟨sessions.Entry.single s, c.engine⟩
    | _ => c

/-! ## `formcrypt.go`: the session-bound key store -/

/-- The method `(*Key).Store`: the context after the call and the returned
error. A method call on a nil `Session` panics. -/
def Store (key : Key) (c : Context) (isMany : Bool) : Except GoPanic (Context × Option GoError) :=
  match getSession c isMany with
  | Except.error p => Except.error p
  | Except.ok none => Except.error GoPanic.nilPointerDereference
  | Except.ok (some session) =>
    let saved := (session.Set (some key)).Save
    Except.ok (putSession c isMany saved.1, saved.2)

/-- The function `Load`. -/
def Load (c : Context) (isMany : Bool) : Except GoPanic (Key × Option GoError) :=
  match getSession c isMany with
  | Except.error p => Except.error p
  | Except.ok none => Except.error GoPanic.nilPointerDereference
  | Except.ok (some session) =>
    match session.Get with
    | none => Except.ok (emptyKey, some GoError.noKeyStored)
    | some key => Except.ok (key, none)

/-- The function `Void`: the context after the call and the returned error. -/
def Void (c : Context) (isMany : Bool) : Except GoPanic (Context × Option GoError) :=
  match getSession c isMany with
  | Except.error p => Except.error p
  | Except.ok none => Except.error GoPanic.nilPointerDereference
  | Except.ok (some session) =>
    let saved := (session.Set none).Save
    Except.ok (putSession c isMany saved.1, saved.2)

/-! ## `_example/main.go`: the submit handler -/

/-- What the submit handler writes with `c.String`. -/
inductive Response
  /-- Status 500, `"error in loading key: " + err.Error()`. -/
  | loadingKeyFailed (err : GoError)
  /-- Status 500, `"error in decrypting data: " + err.Error()`. -/
  | decryptingFailed (err : GoError)
  /-- Status 500, `"error in deleting key: " + err.Error()`. -/
  | deletingKeyFailed (err : GoError)
  /-- Status 200, `"Data received:\nfname=" + fname + "\npassword=" + plaintext`. -/
  | received (fname plaintext : GoString)
  deriving DecidableEq, Repr

/-- The handler of `POST /` in `main`: `fname` and `password` are the values of
`c.PostForm("fname")` and `c.PostForm("password")`. The result is the context
when the handler returns and the response it wrote. -/
def postHandler
    (rsaDecrypt : rsa.PrivateKey → List Byte → Except GoPanic (List Byte × Option GoError))
    (c : Context) (fname password : GoString) : Except GoPanic (Context × Response) :=
  match Load c false with
  | Except.error p => Except.error p
  | Except.ok (_, some err) => Except.ok (c, Response.loadingKeyFailed err)
  | Except.ok (key, none) =>
    match Decrypt rsaDecrypt key password with
    | Except.error p => Except.error p
    | Except.ok (_, some err) => Except.ok (c, Response.decryptingFailed err)
    | Except.ok (plaintext, none) =>
      match Void c false with
      | Except.error p => Except.error p
      | Except.ok (c1, some err) => Except.ok (c1, Response.deletingKeyFailed err)
      | Except.ok (c1, none) => Except.ok (c1, Response.received fname plaintext)

/-! ## Concrete values used in the examples -/

/-- A private key of the shape `rsa.GenerateKey` gives, with the Mersenne
primes `2^31 - 1` and `2^61 - 1`; its modulus has 92 bits, 12 bytes. -/
def demoPrivateKey : rsa.PrivateKey :=
  ⟨⟨some 4951760154835678088235319297, 65537⟩, some 4181459486416926817284415673,
    [2147483647, 2305843009213693951]⟩

/-- A generated `Key` holding `demoPrivateKey`. -/
def demoKey : Key := ⟨92, demoPrivateKey, true⟩

/-- A session store that always commits. -/
def alwaysCommits : Option Key → Option GoError := fun _ => none

/-- A request context with one default session whose slot holds `v`. -/
def singleContext (v : Option Key) : Context :=
  ⟨sessions.Entry.single ⟨v, false, alwaysCommits⟩, none⟩

/-! ## Specification-side notions -/

/-- A character of `0-9`, `a-f` or `A-F`. -/
def IsHexChar (c : Byte) : Prop :=
  (48 ≤ c.val ∧ c.val ≤ 57) ∨ (97 ≤ c.val ∧ c.val ≤ 102) ∨ (65 ≤ c.val ∧ c.val ≤ 70)

/-- A character of `0-9` or `a-f`. -/
def IsLowerHexChar (c : Byte) : Prop :=
  (48 ≤ c.val ∧ c.val ≤ 57) ∨ (97 ≤ c.val ∧ c.val ≤ 102)

/-- The errors of `encoding/hex`. -/
def IsDecodeError (err : GoError) : Prop :=
  err = GoError.hexErrLength ∨ ∃ b, err = GoError.hexInvalidByte b

/-- One operation of the key store on a slot. -/
inductive SlotOp
  | store (key : Key)
  | void

/-- The content a slot should have after a history of operations, given its
content `init` before: what the last operation left, `init` when there was
none. -/
def slotAfter (init : Option Key) (ops : List SlotOp) : Option Key :=
  match ops.getLast? with
  | none => init
  | some (SlotOp.store key) => some key
  | some SlotOp.void => none

/-- Run a history of `Store` and `Void` calls in one addressing mode, whatever
error each call returns. -/
def runOps (isMany : Bool) : Context → List SlotOp → Except GoPanic Context
  | c, [] => Except.ok c
  | c, SlotOp.store key :: ops =>
    match Store key c isMany with
    | Except.error p => Except.error p
    | Except.ok (c1, _) => runOps isMany c1 ops
  | c, SlotOp.void :: ops =>
    match Void c isMany with
    | Except.error p => Except.error p
    | Except.ok (c1, _) => runOps isMany c1 ops

/-- The strings of the pattern `^[0-9a-f]+:[0-9a-f]+$`: a non-empty run of
lowercase hexadecimal characters, one `':'`, a non-empty run of lowercase
hexadecimal characters. -/
def MatchesPKPattern (s : GoString) : Prop :=
  ∃ h1 h2 : GoString, s = h1 ++ colon :: h2 ∧ h1 ≠ [] ∧ h2 ≠ [] ∧
    (∀ c ∈ h1, IsLowerHexChar c) ∧ (∀ c ∈ h2, IsLowerHexChar c)

/-- The reader of the wire form of a public key: split at the first `':'`,
hex-decode each half and read it as a big-endian integer. -/
def parsePK (s : GoString) : Option (Nat × Nat) :=
  match hex.DecodeString (s.takeWhile (fun c => c != colon)),
      hex.DecodeString ((s.dropWhile (fun c => c != colon)).drop 1) with
  | (n, none), (e, none) => some (big.SetBytes n, big.SetBytes e)
  | _, _ => none

/-- What `rsa.GenerateKey` promises of the key it returns: the modulus is the
product of two distinct primes, the public exponent is 65537, and the private
exponent is positive and inverts the public one modulo `p - 1` and `q - 1`. -/
def rsa.ValidKey (priv : rsa.PrivateKey) : Prop :=
  ∃ p q d : Nat, p.Prime ∧ q.Prime ∧ p ≠ q ∧ 0 < d ∧
    priv.PublicKey.N = some ((p * q : Nat) : Int) ∧ priv.PublicKey.E = 65537 ∧
    priv.D = some (d : Int) ∧ priv.Primes = [(p : Int), (q : Int)] ∧
    65537 * d ≡ 1 [MOD p - 1] ∧ 65537 * d ≡ 1 [MOD q - 1]

/-- The contract of `rsa.GenerateKey`: a returned key is valid. -/
def GenerateKeyContract (generateKey : Int → Except GoError rsa.PrivateKey) : Prop :=
  ∀ bits priv, generateKey bits = Except.ok priv → rsa.ValidKey priv

/-- The encryption block of PKCS #1 v1.5 for message `msg` with padding `ps`:
`00 02 ps 00 msg`. -/
def encryptionBlock (ps msg : List Byte) : List Byte := 0 :: 2 :: (ps ++ 0 :: msg)

/-- The byte string `ciphertext` is a PKCS #1 v1.5 encryption of `msg` under
the public key `(n, e)` whose modulus is `k` bytes long: for some padding of
`k - 3 - len(msg)` non-zero bytes, `ciphertext` has at most `k` bytes and its
integer is the encryption block raised to `e` modulo `n`. Both
`rsa.EncryptPKCS1v15` (ciphertext left-padded to `k` bytes) and the client
script (hexadecimal digits of the integer, padded to even length) produce
such a string. -/
def IsPKCS1v15Encryption (n e k : Nat) (msg ciphertext : List Byte) : Prop :=
  ∃ ps : List Byte, ps.length + msg.length + 3 = k ∧ (∀ b ∈ ps, b ≠ 0) ∧
    ciphertext.length ≤ k ∧
    big.SetBytes ciphertext = big.SetBytes (encryptionBlock ps msg) ^ e % n

/-! ## Lemmas on the session model -/

theorem getSession_putSession (c : Context) (isMany : Bool) (s0 s : sessions.Session)
    (h : getSession c isMany = Except.ok (some s0)) :
    getSession (putSession c isMany s) isMany = Except.ok (some s) := by
  obtain ⟨entry, engine⟩ := c
  cases isMany <;> cases entry <;> cases engine <;>
    simp_all [getSession, putSession]

theorem putSession_putSession (c : Context) (isMany : Bool) (s0 s : sessions.Session)
    (h : getSession c isMany = Except.ok (some s0)) :
    putSession (putSession c isMany s) isMany s = putSession c isMany s := by
  obtain ⟨entry, engine⟩ := c
  cases isMany <;> cases entry <;> cases engine <;>
    simp_all [getSession, putSession]

theorem Store_of_getSession (key : Key) (c : Context) (isMany : Bool) (s : sessions.Session)
    (h : getSession c isMany = Except.ok (some s)) :
    Store key c isMany =
      Except.ok (putSession c isMany (s.Set (some key)).Save.1, (s.Set (some key)).Save.2) := by
  simp [Store, h]

theorem Void_of_getSession (c : Context) (isMany : Bool) (s : sessions.Session)
    (h : getSession c isMany = Except.ok (some s)) :
    Void c isMany =
      Except.ok (putSession c isMany (s.Set none).Save.1, (s.Set none).Save.2) := by
  simp [Void, h]

theorem Load_of_getSession (c : Context) (isMany : Bool) (s : sessions.Session)
    (h : getSession c isMany = Except.ok (some s)) :
    Load c isMany =
      match s.slot with
      | none => Except.ok (emptyKey, some GoError.noKeyStored)
      | some key => Except.ok (key, none) := by
  simp only [Load, h, sessions.Session.Get]

theorem Save_Set_slot (s : sessions.Session) (v : Option Key) :
    (s.Set v).Save.1.slot = v ∧ (s.Set v).Save.1.commit = s.commit := by
  simp only [sessions.Session.Set, sessions.Session.Save]
  cases s.commit v <;> simp

theorem Store_exists_of_getSession (key : Key) (c : Context) (isMany : Bool)
    (s : sessions.Session) (h : getSession c isMany = Except.ok (some s)) :
    ∃ c1 err s1, Store key c isMany = Except.ok (c1, err) ∧
      getSession c1 isMany = Except.ok (some s1) ∧ s1.slot = some key := by
  refine ⟨_, _, _, Store_of_getSession key c isMany s h,
    getSession_putSession c isMany s _ h, (Save_Set_slot s (some key)).1⟩

theorem Void_exists_of_getSession (c : Context) (isMany : Bool)
    (s : sessions.Session) (h : getSession c isMany = Except.ok (some s)) :
    ∃ c1 err s1, Void c isMany = Except.ok (c1, err) ∧
      getSession c1 isMany = Except.ok (some s1) ∧ s1.slot = none := by
  refine ⟨_, _, _, Void_of_getSession c isMany s h,
    getSession_putSession c isMany s _ h, (Save_Set_slot s none).1⟩

theorem slotAfter_cons (init : Option Key) (op : SlotOp) (ops : List SlotOp) :
    slotAfter init (op :: ops) =
      slotAfter (match op with
        | SlotOp.store key => some key
        | SlotOp.void => none) ops := by
  cases ops with
  | nil => cases op <;> rfl
  | cons op2 rest =>
    have hlast : (op2 :: rest).getLast? = some ((op2 :: rest).getLast (by simp)) :=
      List.getLast?_eq_getLast _ _
    simp only [slotAfter, List.getLast?_cons_cons, hlast]
    generalize (op2 :: rest).getLast _ = x
    cases x <;> rfl

theorem runOps_slot (isMany : Bool) (ops : List SlotOp) :
    ∀ (c : Context) (s : sessions.Session), getSession c isMany = Except.ok (some s) →
      ∃ c1 s1, runOps isMany c ops = Except.ok c1 ∧
        getSession c1 isMany = Except.ok (some s1) ∧ s1.slot = slotAfter s.slot ops := by
  induction ops with
  | nil => intro c s h; exact ⟨c, s, rfl, h, rfl⟩
  | cons op ops ih =>
    intro c s h
    cases op with
    | store key =>
      obtain ⟨c1, err, s1, h1, h2, h3⟩ := Store_exists_of_getSession key c isMany s h
      obtain ⟨c2, s2, h4, h5, h6⟩ := ih c1 s1 h2
      refine ⟨c2, s2, ?_, h5, ?_⟩
      · simp [runOps, h1, h4]
      · rw [h6, h3, slotAfter_cons]
    | void =>
      obtain ⟨c1, err, s1, h1, h2, h3⟩ := Void_exists_of_getSession c isMany s h
      obtain ⟨c2, s2, h4, h5, h6⟩ := ih c1 s1 h2
      refine ⟨c2, s2, ?_, h5, ?_⟩
      · simp [runOps, h1, h4]
      · rw [h6, h3, slotAfter_cons]

/-! ## Lemmas on `encoding/hex` -/

theorem hex.fromHexChar_hexDigit (v : Nat) (h : v < 16) :
    hex.fromHexChar (hex.hexDigit v) = some v := by
  interval_cases v <;> rfl

theorem hex.hexDigit_lower (v : Nat) (h : v < 16) : IsLowerHexChar (hex.hexDigit v) := by
  unfold IsLowerHexChar
  interval_cases v <;> decide

theorem hex.hexDigit_ne_colon (v : Nat) (h : v < 16) : hex.hexDigit v ≠ colon := by
  interval_cases v <;> decide

theorem hex.fromHexChar_eq_none_iff (c : Byte) : hex.fromHexChar c = none ↔ ¬ IsHexChar c := by
  unfold hex.fromHexChar IsHexChar
  split_ifs <;> simp_all

theorem hex.byte_join (v : Byte) : (Fin.ofNat (v.val / 16 * 16 + v.val % 16) : Byte) = v := by
  have h : v.val / 16 * 16 + v.val % 16 = v.val := by omega
  rw [h]
  apply Fin.ext
  simp [Fin.ofNat, Nat.mod_eq_of_lt v.isLt]

theorem hex.decodeLoop_EncodeToString (bs : List Byte) :
    ∀ dst, hex.decodeLoop (hex.EncodeToString bs) dst = (dst ++ bs, none) := by
  induction bs with
  | nil => intro dst; simp [hex.EncodeToString, hex.decodeLoop]
  | cons v rest ih =>
    intro dst
    have h1 : v.val / 16 < 16 := by have := v.isLt; omega
    have h2 : v.val % 16 < 16 := Nat.mod_lt _ (by norm_num)
    simp only [hex.EncodeToString, hex.decodeLoop, hex.fromHexChar_hexDigit _ h1,
      hex.fromHexChar_hexDigit _ h2]
    rw [hex.byte_join, ih]
    simp

theorem hex.DecodeString_EncodeToString (bs : List Byte) :
    hex.DecodeString (hex.EncodeToString bs) = (bs, none) := by
  simp [hex.DecodeString, hex.decodeLoop_EncodeToString]

theorem hex.EncodeToString_injective (a b : List Byte)
    (h : hex.EncodeToString a = hex.EncodeToString b) : a = b := by
  have ha := hex.DecodeString_EncodeToString a
  rw [h, hex.DecodeString_EncodeToString] at ha
  exact (Prod.mk.inj ha).1.symm

theorem hex.EncodeToString_lower (bs : List Byte) :
    ∀ c ∈ hex.EncodeToString bs, IsLowerHexChar c := by
  induction bs with
  | nil => intro c hc; simp [hex.EncodeToString] at hc
  | cons v rest ih =>
    intro c hc
    have h1 : v.val / 16 < 16 := by have := v.isLt; omega
    have h2 : v.val % 16 < 16 := Nat.mod_lt _ (by norm_num)
    simp only [hex.EncodeToString, List.mem_cons] at hc
    rcases hc with rfl | rfl | hc
    · exact hex.hexDigit_lower _ h1
    · exact hex.hexDigit_lower _ h2
    · exact ih c hc

theorem hex.EncodeToString_no_colon (bs : List Byte) :
    ∀ c ∈ hex.EncodeToString bs, c ≠ colon := by
  induction bs with
  | nil => intro c hc; simp [hex.EncodeToString] at hc
  | cons v rest ih =>
    intro c hc
    have h1 : v.val / 16 < 16 := by have := v.isLt; omega
    have h2 : v.val % 16 < 16 := Nat.mod_lt _ (by norm_num)
    simp only [hex.EncodeToString, List.mem_cons] at hc
    rcases hc with rfl | rfl | hc
    · exact hex.hexDigit_ne_colon _ h1
    · exact hex.hexDigit_ne_colon _ h2
    · exact ih c hc

theorem hex.EncodeToString_ne_nil (bs : List Byte) (h : bs ≠ []) :
    hex.EncodeToString bs ≠ [] := by
  cases bs with
  | nil => exact absurd rfl h
  | cons v rest => simp [hex.EncodeToString]

theorem hex.decodeLoop_malformed :
    ∀ (s : GoString) (dst : List Byte),
      (s.length % 2 = 1 ∨ ∃ c ∈ s, ¬ IsHexChar c) →
      ∃ d err, hex.decodeLoop s dst = (d, some err) ∧ IsDecodeError err
  | [], dst, h => by simp at h
  | [a], dst, _ => by
    simp only [hex.decodeLoop]
    cases hex.fromHexChar a with
    | none => exact ⟨_, _, rfl, Or.inr ⟨a, rfl⟩⟩
    | some x => exact ⟨_, _, rfl, Or.inl rfl⟩
  | a :: b :: rest, dst, h => by
    simp only [hex.decodeLoop]
    cases ha : hex.fromHexChar a with
    | none => exact ⟨_, _, rfl, Or.inr ⟨a, rfl⟩⟩
    | some x =>
      cases hb : hex.fromHexChar b with
      | none => exact ⟨_, _, rfl, Or.inr ⟨b, rfl⟩⟩
      | some y =>
        apply hex.decodeLoop_malformed rest
        have hna : IsHexChar a := by
          by_contra hc
          rw [(hex.fromHexChar_eq_none_iff a).mpr hc] at ha
          cases ha
        have hnb : IsHexChar b := by
          by_contra hc
          rw [(hex.fromHexChar_eq_none_iff b).mpr hc] at hb
          cases hb
        rcases h with h | ⟨c, hc, hbad⟩
        · left
          simp only [List.length_cons] at h
          omega
        · right
          simp only [List.mem_cons] at hc
          rcases hc with rfl | rfl | hc
          · exact absurd hna hbad
          · exact absurd hnb hbad
          · exact ⟨c, hc, hbad⟩

/-! ## Lemmas on `math/big` -/

theorem big.bytesAux_eq_digits (fuel : Nat) :
    ∀ (n : Nat) (acc : List Byte), n ≤ fuel →
      big.bytesAux fuel n acc = ((Nat.digits 256 n).reverse.map Fin.ofNat) ++ acc := by
  induction fuel with
  | zero =>
    intro n acc hn
    have h0 : n = 0 := by omega
    subst h0
    simp [big.bytesAux]
  | succ fuel ih =>
    intro n acc hn
    by_cases h0 : n = 0
    · subst h0
      simp [big.bytesAux]
    · have hpos : 0 < n := Nat.pos_of_ne_zero h0
      have hdiv : n / 256 ≤ fuel := by omega
      simp only [big.bytesAux, h0, if_false]
      rw [ih (n / 256) _ hdiv, Nat.digits_def' (by norm_num) hpos]
      simp

theorem big.natBytes_eq_digits (n : Nat) :
    big.natBytes n = (Nat.digits 256 n).reverse.map Fin.ofNat := by
  simp [big.natBytes, big.bytesAux_eq_digits n n [] (le_refl n)]

theorem big.SetBytes_append (a b : List Byte) :
    big.SetBytes (a ++ b) = big.SetBytes a * 256 ^ b.length + big.SetBytes b := by
  induction b using List.reverseRecOn with
  | nil => simp [big.SetBytes]
  | append_singleton b x ih =>
    have h1 : big.SetBytes (a ++ (b ++ [x])) = big.SetBytes (a ++ b) * 256 + x.val := by
      simp [big.SetBytes, List.foldl_append]
    have h2 : big.SetBytes (b ++ [x]) = big.SetBytes b * 256 + x.val := by
      simp [big.SetBytes, List.foldl_append]
    rw [h1, h2, ih, List.length_append, List.length_singleton, pow_succ]
    ring

theorem big.SetBytes_cons (x : Byte) (b : List Byte) :
    big.SetBytes (x :: b) = x.val * 256 ^ b.length + big.SetBytes b := by
  have h := big.SetBytes_append [x] b
  simpa [big.SetBytes] using h

theorem big.SetBytes_lt (b : List Byte) : big.SetBytes b < 256 ^ b.length := by
  induction b with
  | nil => simp [big.SetBytes]
  | cons x b ih =>
    rw [big.SetBytes_cons, List.length_cons, pow_succ]
    have hx := x.isLt
    nlinarith [ih, hx]

theorem big.natBytes_zero : big.natBytes 0 = [] := by
  simp [big.natBytes, big.bytesAux]

theorem big.natBytes_of_ne_zero (n : Nat) (h : n ≠ 0) :
    big.natBytes n = big.natBytes (n / 256) ++ [Fin.ofNat (n % 256)] := by
  rw [big.natBytes_eq_digits, big.natBytes_eq_digits,
    Nat.digits_def' (by norm_num) (Nat.pos_of_ne_zero h)]
  simp

theorem big.natBytes_ne_nil (n : Nat) (h : n ≠ 0) : big.natBytes n ≠ [] := by
  rw [big.natBytes_of_ne_zero n h]
  simp

theorem big.SetBytes_natBytes (n : Nat) : big.SetBytes (big.natBytes n) = n := by
  induction n using Nat.strong_induction_on with
  | _ n ih =>
    by_cases h : n = 0
    · subst h
      simp [big.natBytes_zero, big.SetBytes]
    · rw [big.natBytes_of_ne_zero n h, big.SetBytes_append, ih (n / 256) (by omega)]
      have hmod : n % 256 < 256 := Nat.mod_lt _ (by norm_num)
      simp [big.SetBytes, Fin.ofNat, Nat.mod_eq_of_lt hmod]
      omega

theorem big.natBytes_injective (a b : Nat) (h : big.natBytes a = big.natBytes b) : a = b := by
  have ha := big.SetBytes_natBytes a
  rw [h, big.SetBytes_natBytes] at ha
  exact ha.symm

theorem big.exists_leading_zeros (bs : List Byte) :
    ∃ z, bs = List.replicate z 0 ++ big.natBytes (big.SetBytes bs) := by
  induction bs using List.reverseRecOn with
  | nil => exact ⟨0, by simp [big.SetBytes, big.natBytes_zero]⟩
  | append_singleton bs x ih =>
    obtain ⟨z, hz⟩ := ih
    have hS : big.SetBytes (bs ++ [x]) = big.SetBytes bs * 256 + x.val := by
      simp [big.SetBytes, List.foldl_append]
    have hx := x.isLt
    by_cases h0 : big.SetBytes (bs ++ [x]) = 0
    · have hb : big.SetBytes bs = 0 := by omega
      have hx0 : x = 0 := by
        apply Fin.ext
        simp only [Fin.val_zero]
        omega
      refine ⟨z + 1, ?_⟩
      rw [h0, big.natBytes_zero, List.append_nil]
      rw [hb, big.natBytes_zero, List.append_nil] at hz
      rw [hz, hx0, List.replicate_succ']
    · refine ⟨z, ?_⟩
      rw [big.natBytes_of_ne_zero _ h0, hS]
      have hd : (big.SetBytes bs * 256 + x.val) / 256 = big.SetBytes bs := by omega
      have hm : (big.SetBytes bs * 256 + x.val) % 256 = x.val := by omega
      have hxx : (Fin.ofNat x.val : Byte) = x := by
        apply Fin.ext
        simp [Fin.ofNat, Nat.mod_eq_of_lt hx]
      rw [hd, hm, hxx, ← List.append_assoc, ← hz]

theorem rsa.leftPad_natBytes_SetBytes (em : List Byte) :
    rsa.leftPad (big.natBytes (big.SetBytes em)) em.length = em := by
  obtain ⟨z, hz⟩ := big.exists_leading_zeros em
  have hlen : em.length = z + (big.natBytes (big.SetBytes em)).length := by
    conv_lhs => rw [hz]
    simp
  unfold rsa.leftPad
  rw [hlen]
  have h1 : z + (big.natBytes (big.SetBytes em)).length
      - (big.natBytes (big.SetBytes em)).length = z := by omega
  have h2 : (big.natBytes (big.SetBytes em)).length
      - (z + (big.natBytes (big.SetBytes em)).length) = 0 := by omega
  rw [h1, h2, List.drop_zero]
  exact hz.symm

theorem big.bitLenAux_zero (fuel : Nat) : big.bitLenAux fuel 0 = 0 := by
  cases fuel <;> simp [big.bitLenAux]

theorem big.two_pow_bitLenAux_le (fuel : Nat) :
    ∀ n, n ≤ fuel → 0 < n → 2 ^ big.bitLenAux fuel n ≤ 2 * n := by
  induction fuel with
  | zero => intro n hn hpos; omega
  | succ fuel ih =>
    intro n hn hpos
    have h0 : n ≠ 0 := by omega
    simp only [big.bitLenAux, h0, if_false]
    by_cases h2 : n / 2 = 0
    · rw [h2, big.bitLenAux_zero]
      simp
      omega
    · have hle := ih (n / 2) (by omega) (Nat.pos_of_ne_zero h2)
      rw [pow_succ]
      omega

theorem rsa.pow_Size_le (n : Nat) (hn : 0 < n) :
    256 ^ (rsa.Size (n : Int) - 1) ≤ n := by
  have hb := big.two_pow_bitLenAux_le n n (le_refl n) hn
  unfold rsa.Size big.BitLen
  simp only [Int.natAbs_ofNat]
  set b := big.bitLenAux n n with hbdef
  have hbpos : 0 < b := by
    by_contra hc
    have hb0 : b = 0 := by omega
    have hn0 : n ≠ 0 := by omega
    cases n with
    | zero => exact hn0 rfl
    | succ m => simp [hbdef, big.bitLenAux] at hb0
  have hk : 8 * ((b + 7) / 8 - 1) ≤ b - 1 := by omega
  have h256 : (256 : Nat) ^ ((b + 7) / 8 - 1) = 2 ^ (8 * ((b + 7) / 8 - 1)) := by
    rw [pow_mul]
    norm_num
  rw [h256]
  have h3 : 2 ^ (8 * ((b + 7) / 8 - 1)) ≤ 2 ^ (b - 1) :=
    Nat.pow_le_pow_right (by norm_num) hk
  have h4 : 2 ^ b = 2 * 2 ^ (b - 1) := by
    conv_lhs => rw [show b = (b - 1) + 1 by omega]
    rw [pow_succ]
    ring
  omega

theorem big.modExpAux_eq (fuel : Nat) :
    ∀ b e m, e ≤ fuel → big.modExpAux fuel b e m = b ^ e % m := by
  induction fuel with
  | zero =>
    intro b e m he
    have h0 : e = 0 := by omega
    subst h0
    simp [big.modExpAux]
  | succ fuel ih =>
    intro b e m he
    by_cases h0 : e = 0
    · subst h0
      simp [big.modExpAux]
    · simp only [big.modExpAux, h0, if_false]
      rw [ih (b * b % m) (e / 2) m (by omega), ← Nat.pow_mod]
      have hsq : (b * b) ^ (e / 2) = b ^ (2 * (e / 2)) := by
        rw [pow_mul, pow_two]
      by_cases hodd : e % 2 = 1
      · simp only [hodd, if_true]
        rw [Nat.mul_mod, Nat.mod_mod, ← Nat.mul_mod, hsq, ← pow_succ']
        congr 2
        omega
      · simp only [hodd, if_false]
        rw [hsq]
        congr 2
        omega

theorem big.modExp_eq (b e m : Nat) : big.modExp b e m = b ^ e % m :=
  big.modExpAux_eq e b e m (le_refl e)

/-! ## Lemmas on `crypto/rsa` -/

theorem rsa.pow_modEq_prime (p : Nat) (hp : p.Prime) (k : Nat) (hpos : 0 < k)
    (hk : k ≡ 1 [MOD p - 1]) (m : Nat) : m ^ k ≡ m [MOD p] := by
  haveI : Fact p.Prime := ⟨hp⟩
  rw [← ZMod.natCast_eq_natCast_iff]
  push_cast
  by_cases hm : (m : ZMod p) = 0
  · rw [hm, zero_pow (by omega)]
  · have hdvd : (p - 1) ∣ k - 1 := (Nat.modEq_iff_dvd' hpos).mp hk.symm
    obtain ⟨t, ht⟩ := hdvd
    have hkeq : k = (p - 1) * t + 1 := by omega
    rw [hkeq, pow_succ, pow_mul, ZMod.pow_card_sub_one_eq_one hm, one_pow, one_mul]

theorem rsa.pow_modEq_mul (p q k : Nat) (hp : p.Prime) (hq : q.Prime) (hne : p ≠ q)
    (hpos : 0 < k) (h1 : k ≡ 1 [MOD p - 1]) (h2 : k ≡ 1 [MOD q - 1]) (m : Nat) :
    m ^ k ≡ m [MOD p * q] :=
  (Nat.modEq_and_modEq_iff_modEq_mul ((Nat.coprime_primes hp hq).mpr hne)).mp
    ⟨rsa.pow_modEq_prime p hp k hpos h1 m, rsa.pow_modEq_prime q hq k hpos h2 m⟩

theorem rsa.findZero_padding (ps msg : List Byte) (hps : ∀ b ∈ ps, b ≠ 0) :
    ∀ i, rsa.findZero (ps ++ 0 :: msg) i = some (i + ps.length) := by
  induction ps with
  | nil => intro i; simp [rsa.findZero]
  | cons b rest ih =>
    intro i
    have hb : b ≠ 0 := hps b (by simp)
    have hrest := ih (fun c hc => hps c (by simp [hc])) (i + 1)
    simp only [List.cons_append, rsa.findZero, hb, if_false, List.length_cons]
    rw [show i + (rest.length + 1) = i + 1 + rest.length by omega]
    exact hrest

theorem rsa.drop_padding (ps msg : List Byte) :
    (ps ++ 0 :: msg).drop (ps.length + 1) = msg := by
  induction ps with
  | nil => simp
  | cons b rest ih =>
    rw [List.cons_append, List.length_cons, List.drop_succ_cons]
    exact ih

theorem rsa.unpad_encryptionBlock (ps msg : List Byte) (hps : ∀ b ∈ ps, b ≠ 0)
    (hlen : 8 ≤ ps.length) : rsa.unpad (encryptionBlock ps msg) = (msg, none) := by
  unfold encryptionBlock rsa.unpad
  simp only [rsa.findZero_padding ps msg hps 2]
  have h10 : 2 + 8 ≤ 2 + ps.length := by omega
  have hdrop : (0 :: 2 :: (ps ++ 0 :: msg) : List Byte).drop (2 + ps.length + 1) = msg := by
    have e : 2 + ps.length + 1 = (ps.length + 1) + 1 + 1 := by omega
    rw [e, List.drop_succ_cons, List.drop_succ_cons]
    exact rsa.drop_padding ps msg
  simp [h10, hdrop]

theorem rsa.encryptionBlock_length (ps msg : List Byte) :
    (encryptionBlock ps msg).length = ps.length + msg.length + 3 := by
  simp [encryptionBlock]
  omega

theorem rsa.SetBytes_encryptionBlock_lt (ps msg : List Byte) :
    big.SetBytes (encryptionBlock ps msg) < 256 ^ (ps.length + msg.length + 3 - 1) := by
  have h := big.SetBytes_lt ((2 : Byte) :: (ps ++ 0 :: msg))
  have hc : big.SetBytes (encryptionBlock ps msg)
      = big.SetBytes ((2 : Byte) :: (ps ++ 0 :: msg)) := by
    unfold encryptionBlock
    rw [big.SetBytes_cons]
    simp
  rw [hc]
  have hl : ((2 : Byte) :: (ps ++ 0 :: msg)).length = ps.length + msg.length + 3 - 1 := by
    simp
    omega
  rw [← hl]
  exact h

theorem rsa.DecryptPKCS1v15_of_encryption (priv : rsa.PrivateKey) (hv : rsa.ValidKey priv)
    (n : Nat) (hn : priv.PublicKey.N = some (n : Int)) (msg ciphertext : List Byte)
    (hmsg : msg.length + 11 ≤ rsa.Size (n : Int))
    (henc : IsPKCS1v15Encryption n 65537 (rsa.Size (n : Int)) msg ciphertext) :
    rsa.DecryptPKCS1v15 priv ciphertext = Except.ok (msg, none) := by
  obtain ⟨p, q, d, hp, hq, hne, hd, hN, hE, hD, -, h1, h2⟩ := hv
  obtain ⟨ps, hk, hps, -, hc⟩ := henc
  have hnpq : n = p * q := by
    rw [hn] at hN
    exact_mod_cast Option.some.inj hN
  have hnpos : 0 < n := by
    rw [hnpq]
    exact Nat.mul_pos hp.pos hq.pos
  have hcheck : rsa.checkPub priv.PublicKey = none := by
    simp [rsa.checkPub, hn, hE]
  set k := rsa.Size (n : Int) with hkdef
  have hk11 : ¬ k < 11 := by omega
  have hclt : big.SetBytes ciphertext < n := by
    rw [hc]
    exact Nat.mod_lt _ hnpos
  have hcle : ¬ ((big.SetBytes ciphertext : Nat) : Int) > (n : Int) := by
    have : ((big.SetBytes ciphertext : Nat) : Int) < (n : Int) := by exact_mod_cast hclt
    omega
  have hn0 : ¬ (n : Int) = 0 := by
    have : (0 : Int) < (n : Int) := by exact_mod_cast hnpos
    omega
  have hemlt : big.SetBytes (encryptionBlock ps msg) < n := by
    have hlt := rsa.SetBytes_encryptionBlock_lt ps msg
    rw [hk] at hlt
    exact lt_of_lt_of_le hlt (rsa.pow_Size_le n hnpos)
  have hpow : big.modExp (big.SetBytes ciphertext) d n
      = big.SetBytes (encryptionBlock ps msg) := by
    rw [big.modExp_eq, hc, ← Nat.pow_mod, ← pow_mul]
    have hmod := rsa.pow_modEq_mul p q (65537 * d) hp hq hne (by omega) h1 h2
      (big.SetBytes (encryptionBlock ps msg))
    rw [← hnpq] at hmod
    rw [hmod, Nat.mod_eq_of_lt hemlt]
  have hpad : rsa.leftPad (big.natBytes (big.SetBytes (encryptionBlock ps msg))) k
      = encryptionBlock ps msg := by
    have hl := rsa.encryptionBlock_length ps msg
    rw [hk] at hl
    rw [← hl]
    exact rsa.leftPad_natBytes_SetBytes _
  have hps8 : 8 ≤ ps.length := by omega
  unfold rsa.DecryptPKCS1v15
  simp only [hcheck, hn, hD]
  simp only [← hkdef, hk11, hcle, hn0, if_false, Int.toNat_ofNat, Int.natAbs_ofNat, hpow, hpad,
    rsa.unpad_encryptionBlock ps msg hps hps8]

/-! ## The submit handler (C1) -/

theorem postHandler_of_decrypt_error
    (rsaDecrypt : rsa.PrivateKey → List Byte → Except GoPanic (List Byte × Option GoError))
    (c : Context) (fname password : GoString) (key : Key) (out : GoString) (err : GoError)
    (hload : Load c false = Except.ok (key, none))
    (hdec : Decrypt rsaDecrypt key password = Except.ok (out, some err)) :
    postHandler rsaDecrypt c fname password = Except.ok (c, Response.decryptingFailed err) := by
  simp [postHandler, hload, hdec]

/-- C1, the code at the failing input: the slot holds a generated key and the
submitted password is the two characters `zz`, which are not hexadecimal. The
handler answers that decryption failed and returns with the context it was
given, without a call of `Void`; the slot still holds the key, and a following
`Load` returns that key with no error. -/
theorem postHandler_decode_error_keeps_key :
    postHandler rsa.DecryptPKCS1v15 (singleContext (some demoKey)) [] [122, 122]
        = Except.ok (singleContext (some demoKey),
            Response.decryptingFailed (GoError.hexInvalidByte 122)) ∧
      Load (singleContext (some demoKey)) false = Except.ok (demoKey, none) :=
  ⟨rfl, rfl⟩

/-! ## Key generation (C2) -/

/-- C2: on a key whose `generated` flag is set, `Generate` returns the
generate-twice error and the key after the call is the key before it (bit
size, RSA key and flag), whatever `rsa.GenerateKey` would have returned. -/
theorem Generate_twice_denied (generateKey : Int → Except GoError rsa.PrivateKey) (key : Key)
    (h : key.generated = true) :
    Generate generateKey key = (key, some GoError.generateTwice) := by
  simp [Generate, h]

theorem Generate_twice_denied_witness :
    demoKey.generated = true ∧
      Generate (fun _ => Except.ok rsa.zeroPrivateKey) demoKey
        = (demoKey, some GoError.generateTwice) :=
  ⟨rfl, Generate_twice_denied _ demoKey rfl⟩

/-! ## The session-bound key store (C4, C5, C9) -/

/-- C4: when `Store` of a key succeeds, in either addressing mode and whatever
the slot held before, `Load` in the same mode on the resulting context returns
that key, equal in every field, and no error. -/
theorem Store_Load_roundtrip (key : Key) (c c1 : Context) (isMany : Bool)
    (h : Store key c isMany = Except.ok (c1, none)) :
    Load c1 isMany = Except.ok (key, none) := by
  cases hgs : getSession c isMany with
  | error p => simp [Store, hgs] at h
  | ok o =>
    cases o with
    | none => simp [Store, hgs] at h
    | some s =>
      rw [Store_of_getSession key c isMany s hgs] at h
      have hc1 : putSession c isMany (s.Set (some key)).Save.1 = c1 :=
        (Prod.mk.inj (Except.ok.inj h)).1
      rw [← hc1, Load_of_getSession _ isMany _ (getSession_putSession c isMany s _ hgs),
        (Save_Set_slot s (some key)).1]

theorem Store_Load_roundtrip_witness :
    Store demoKey (singleContext (some emptyKey)) false
        = Except.ok (singleContext (some demoKey), none) ∧
      Load (singleContext (some demoKey)) false = Except.ok (demoKey, none) :=
  ⟨rfl, Store_Load_roundtrip demoKey (singleContext (some emptyKey)) _ false rfl⟩

/-- C5: on a context whose session exists, after any history of `Store` and
`Void` calls, `Load` returns the empty key with the no-key error exactly when
the slot is empty by that history (nothing stored before and no call, or the
last call was `Void`); otherwise it returns the key of the last `Store` (or the
key held initially) and no error. In particular `Load` after `Void` fails. -/
theorem Load_fails_iff_slot_empty (c : Context) (isMany : Bool) (s : sessions.Session)
    (ops : List SlotOp) (h : getSession c isMany = Except.ok (some s)) :
    ∃ c1, runOps isMany c ops = Except.ok c1 ∧
      (Load c1 isMany = Except.ok (emptyKey, some GoError.noKeyStored)
        ↔ slotAfter s.slot ops = none) ∧
      (∀ key, slotAfter s.slot ops = some key → Load c1 isMany = Except.ok (key, none)) := by
  obtain ⟨c1, s1, hrun, hget, hslot⟩ := runOps_slot isMany ops c s h
  refine ⟨c1, hrun, ?_, ?_⟩
  · rw [Load_of_getSession c1 isMany s1 hget, hslot]
    cases slotAfter s.slot ops <;> simp
  · intro key hkey
    rw [Load_of_getSession c1 isMany s1 hget, hslot, hkey]

theorem Load_fails_iff_slot_empty_witness :
    getSession (singleContext (some demoKey)) false
        = Except.ok (some ⟨some demoKey, false, alwaysCommits⟩) ∧
      ∃ c1, runOps false (singleContext (some demoKey)) [SlotOp.store demoKey, SlotOp.void]
          = Except.ok c1 ∧
        (Load c1 false = Except.ok (emptyKey, some GoError.noKeyStored)
          ↔ slotAfter (some demoKey) [SlotOp.store demoKey, SlotOp.void] = none) ∧
        (∀ key, slotAfter (some demoKey) [SlotOp.store demoKey, SlotOp.void] = some key →
          Load c1 false = Except.ok (key, none)) :=
  ⟨rfl, Load_fails_iff_slot_empty (singleContext (some demoKey)) false
    ⟨some demoKey, false, alwaysCommits⟩ [SlotOp.store demoKey, SlotOp.void] rfl⟩

/-- C9: on a context whose session exists and whose store commits the emptied
session, `Void` returns no error and leaves the slot empty, whether or not it
held a key; a second `Void` then returns no error and leaves the context as the
first call left it. -/
theorem Void_idempotent (c : Context) (isMany : Bool) (s : sessions.Session)
    (h : getSession c isMany = Except.ok (some s)) (hcommit : s.commit none = none) :
    ∃ c1, Void c isMany = Except.ok (c1, none) ∧
      getSession c1 isMany = Except.ok (some ⟨none, false, s.commit⟩) ∧
      Void c1 isMany = Except.ok (c1, none) := by
  have hsave : (s.Set none).Save = (⟨none, false, s.commit⟩, none) := by
    simp [sessions.Session.Set, sessions.Session.Save, hcommit]
  have hsave2 : ((⟨none, false, s.commit⟩ : sessions.Session).Set none).Save
      = (⟨none, false, s.commit⟩, none) := by
    simp [sessions.Session.Set, sessions.Session.Save, hcommit]
  have hget := getSession_putSession c isMany s ⟨none, false, s.commit⟩ h
  refine ⟨putSession c isMany ⟨none, false, s.commit⟩, ?_, hget, ?_⟩
  · rw [Void_of_getSession c isMany s h, hsave]
  · rw [Void_of_getSession _ isMany _ hget, hsave2, putSession_putSession c isMany s _ h]

theorem Void_idempotent_witness :
    getSession (singleContext (some demoKey)) false
        = Except.ok (some ⟨some demoKey, false, alwaysCommits⟩) ∧
      alwaysCommits none = none ∧
      ∃ c1, Void (singleContext (some demoKey)) false = Except.ok (c1, none) ∧
        getSession c1 false = Except.ok (some ⟨none, false, alwaysCommits⟩) ∧
        Void c1 false = Except.ok (c1, none) :=
  ⟨rfl, rfl, Void_idempotent (singleContext (some demoKey)) false
    ⟨some demoKey, false, alwaysCommits⟩ rfl rfl⟩

/-! ## Generated keys and the wire form of the public key -/

theorem Generate_success (generateKey : Int → Except GoError rsa.PrivateKey)
    (hgen : GenerateKeyContract generateKey) (key0 key : Key)
    (h : Generate generateKey key0 = (key, none)) :
    key.generated = true ∧ rsa.ValidKey key.Key := by
  unfold Generate at h
  split at h
  · simp at h
  · split at h
    · simp at h
    · rename_i rsaKey hok
      have hk : key = ⟨key0.BitSize, rsaKey, true⟩ := (Prod.mk.inj h).1.symm
      subst hk
      exact ⟨rfl, hgen _ _ hok⟩

theorem prime_mersenne_31 : Nat.Prime 2147483647 := by
  have h : (mersenne 31).Prime := lucas_lehmer_sufficiency _ (by norm_num) (by norm_num)
  have e : mersenne 31 = 2147483647 := by norm_num [mersenne]
  rwa [e] at h

theorem prime_mersenne_61 : Nat.Prime 2305843009213693951 := by
  have h : (mersenne 61).Prime := lucas_lehmer_sufficiency _ (by norm_num) (by norm_num)
  have e : mersenne 61 = 2305843009213693951 := by norm_num [mersenne]
  rwa [e] at h

theorem demoPrivateKey_valid : rsa.ValidKey demoPrivateKey :=
  ⟨2147483647, 2305843009213693951, 4181459486416926817284415673,
    prime_mersenne_31, prime_mersenne_61, by decide, by decide, by decide, rfl, rfl, rfl,
    by decide, by decide⟩

theorem demo_contract : GenerateKeyContract (fun _ => Except.ok demoPrivateKey) := by
  intro bits priv h
  have hp : demoPrivateKey = priv := Except.ok.inj h
  rw [← hp]
  exact demoPrivateKey_valid

theorem takeWhile_colon (a b : GoString) (ha : ∀ c ∈ a, c ≠ colon) :
    (a ++ colon :: b).takeWhile (fun c => c != colon) = a := by
  induction a with
  | nil => simp
  | cons x rest ih =>
    have hx : x ≠ colon := ha x (by simp)
    simp only [List.cons_append, List.takeWhile_cons, bne_iff_ne, ne_eq, hx, not_false_eq_true,
      decide_True, if_true]
    rw [ih (fun c hc => ha c (by simp [hc]))]

theorem dropWhile_colon (a b : GoString) (ha : ∀ c ∈ a, c ≠ colon) :
    (a ++ colon :: b).dropWhile (fun c => c != colon) = colon :: b := by
  induction a with
  | nil => simp
  | cons x rest ih =>
    have hx : x ≠ colon := ha x (by simp)
    simp only [List.cons_append, List.dropWhile_cons, bne_iff_ne, ne_eq, hx, not_false_eq_true,
      decide_True, if_true]
    exact ih (fun c hc => ha c (by simp [hc]))

theorem parsePK_wire (nb eb : List Byte) :
    parsePK (hex.EncodeToString nb ++ colon :: hex.EncodeToString eb)
      = some (big.SetBytes nb, big.SetBytes eb) := by
  unfold parsePK
  rw [takeWhile_colon _ _ (hex.EncodeToString_no_colon nb),
    dropWhile_colon _ _ (hex.EncodeToString_no_colon nb), List.drop_succ_cons, List.drop_zero,
    hex.DecodeString_EncodeToString, hex.DecodeString_EncodeToString]

theorem GetPKHexString_of_public (key : Key) (n e : Nat)
    (hN : key.Key.PublicKey.N = some (n : Int)) (hE : key.Key.PublicKey.E = (e : Int)) :
    GetPKHexString key = Except.ok
      (hex.EncodeToString (big.natBytes n) ++ colon :: hex.EncodeToString (big.natBytes e)) := by
  simp [GetPKHexString, hN, hE, big.Bytes]

theorem count_colon_wire (nb eb : List Byte) :
    (hex.EncodeToString nb ++ colon :: hex.EncodeToString eb).count colon = 1 := by
  have h1 : (hex.EncodeToString nb).count colon = 0 :=
    List.count_eq_zero_of_not_mem (fun hm => hex.EncodeToString_no_colon nb colon hm rfl)
  have h2 : (hex.EncodeToString eb).count colon = 0 :=
    List.count_eq_zero_of_not_mem (fun hm => hex.EncodeToString_no_colon eb colon hm rfl)
  simp [List.count_append, List.count_cons, h1, h2]

/-! ## Decryption (C3, C6) -/

/-- C3: for a key that `Generate` has produced (with `rsa.GenerateKey` keeping
its contract), whose modulus `n` is `k` bytes long, for every message `P` of at
most `k - 11` bytes and every PKCS #1 v1.5 encryption `C` of `P` under the
public half `(n, e)` of the key, `Decrypt` of the hex encoding of `C` returns
exactly the bytes of `P` and no error. -/
theorem Decrypt_roundtrip (generateKey : Int → Except GoError rsa.PrivateKey)
    (hgen : GenerateKeyContract generateKey) (key0 key : Key)
    (hkey : Generate generateKey key0 = (key, none))
    (n e : Nat) (hN : key.Key.PublicKey.N = some (n : Int))
    (hE : key.Key.PublicKey.E = (e : Int)) (P C : List Byte)
    (hP : P.length + 11 ≤ rsa.Size (n : Int))
    (henc : IsPKCS1v15Encryption n e (rsa.Size (n : Int)) P C) :
    Decrypt rsa.DecryptPKCS1v15 key (hex.EncodeToString C) = Except.ok (P, none) := by
  have hvalid := (Generate_success generateKey hgen key0 key hkey).2
  have he : e = 65537 := by
    obtain ⟨p, q, d, -, -, -, -, -, hE2, -⟩ := hvalid
    rw [hE] at hE2
    exact_mod_cast hE2
  subst he
  have hdec := rsa.DecryptPKCS1v15_of_encryption key.Key hvalid n hN P C hP henc
  simp [Decrypt, hex.DecodeString_EncodeToString, hdec]

set_option maxRecDepth 100000 in
theorem Decrypt_roundtrip_witness :
    GenerateKeyContract (fun _ => Except.ok demoPrivateKey) ∧
      Generate (fun _ => Except.ok demoPrivateKey) ⟨92, rsa.zeroPrivateKey, false⟩
        = (demoKey, none) ∧
      demoKey.Key.PublicKey.N = some ((4951760154835678088235319297 : Nat) : Int) ∧
      demoKey.Key.PublicKey.E = ((65537 : Nat) : Int) ∧
      ([65] : List Byte).length + 11 ≤ rsa.Size ((4951760154835678088235319297 : Nat) : Int) ∧
      IsPKCS1v15Encryption 4951760154835678088235319297 65537
        (rsa.Size ((4951760154835678088235319297 : Nat) : Int)) [65]
        [3, 179, 68, 175, 151, 133, 9, 74, 52, 10, 104, 17] ∧
      Decrypt rsa.DecryptPKCS1v15 demoKey
          (hex.EncodeToString [3, 179, 68, 175, 151, 133, 9, 74, 52, 10, 104, 17])
        = Except.ok ([65], none) := by
  have henc : IsPKCS1v15Encryption 4951760154835678088235319297 65537
      (rsa.Size ((4951760154835678088235319297 : Nat) : Int)) [65]
      [3, 179, 68, 175, 151, 133, 9, 74, 52, 10, 104, 17] := by
    refine ⟨[1, 2, 3, 4, 5, 6, 7, 8], by decide, by decide, by decide, ?_⟩
    rw [← big.modExp_eq]
    decide
  exact ⟨demo_contract, rfl, rfl, rfl, by decide, henc,
    Decrypt_roundtrip _ demo_contract ⟨92, rsa.zeroPrivateKey, false⟩ demoKey rfl
      4951760154835678088235319297 65537 rfl rfl [65] _ (by decide) henc⟩

/-- C6: for an input string of odd length or with a character outside `0-9`,
`a-f`, `A-F`, there is a decode error of `encoding/hex` such that `Decrypt`
returns the empty string and that error, for every key and whatever RSA
decryption would do (it is not called): `Decrypt` does not panic. -/
theorem Decrypt_malformed_hex (s : GoString)
    (h : s.length % 2 = 1 ∨ ∃ c ∈ s, ¬ IsHexChar c) :
    ∃ err, IsDecodeError err ∧
      ∀ (rsaDecrypt : rsa.PrivateKey → List Byte → Except GoPanic (List Byte × Option GoError))
        (key : Key), Decrypt rsaDecrypt key s = Except.ok ([], some err) := by
  obtain ⟨d, err, hd, herr⟩ := hex.decodeLoop_malformed s [] h
  refine ⟨err, herr, ?_⟩
  intro rsaDecrypt key
  have hds : hex.DecodeString s = (d, some err) := hd
  simp [Decrypt, hds]

theorem Decrypt_malformed_hex_witness :
    (([48, 49, 50] : GoString).length % 2 = 1 ∨ ∃ c ∈ ([48, 49, 50] : GoString), ¬ IsHexChar c) ∧
      ∃ err, IsDecodeError err ∧
        ∀ (rsaDecrypt : rsa.PrivateKey → List Byte → Except GoPanic (List Byte × Option GoError))
          (key : Key), Decrypt rsaDecrypt key [48, 49, 50] = Except.ok ([], some err) :=
  ⟨Or.inl (by decide), Decrypt_malformed_hex [48, 49, 50] (Or.inl (by decide))⟩

/-! ## The wire form of the public key (C7, C8, C10) -/

/-- C7: for a key that `Generate` has produced (with `rsa.GenerateKey` keeping
its contract), `GetPKHexString` returns the hex encoding of the modulus bytes,
one `':'` and the hex encoding of the exponent bytes; both encodings are
non-empty and lowercase, so the string matches `^[0-9a-f]+:[0-9a-f]+$` and
holds exactly one `':'`. -/
theorem GetPKHexString_matches_pattern (generateKey : Int → Except GoError rsa.PrivateKey)
    (hgen : GenerateKeyContract generateKey) (key0 key : Key)
    (hkey : Generate generateKey key0 = (key, none)) :
    ∃ (n e : Nat) (s : GoString),
      key.Key.PublicKey.N = some (n : Int) ∧ key.Key.PublicKey.E = (e : Int) ∧
      GetPKHexString key = Except.ok s ∧
      s = hex.EncodeToString (big.natBytes n) ++ colon :: hex.EncodeToString (big.natBytes e) ∧
      MatchesPKPattern s ∧ s.count colon = 1 := by
  obtain ⟨p, q, d, hp, hq, -, -, hN, hE, -⟩ :=
    (Generate_success generateKey hgen key0 key hkey).2
  have hn0 : p * q ≠ 0 := Nat.mul_ne_zero hp.pos.ne' hq.pos.ne'
  have hE2 : key.Key.PublicKey.E = ((65537 : Nat) : Int) := by rw [hE]; rfl
  refine ⟨p * q, 65537, _, hN, hE2, GetPKHexString_of_public key (p * q) 65537 hN hE2, rfl,
    ?_, count_colon_wire _ _⟩
  exact ⟨_, _, rfl, hex.EncodeToString_ne_nil _ (big.natBytes_ne_nil _ hn0),
    hex.EncodeToString_ne_nil _ (big.natBytes_ne_nil _ (by norm_num)),
    hex.EncodeToString_lower _, hex.EncodeToString_lower _⟩

theorem GetPKHexString_matches_pattern_witness :
    GenerateKeyContract (fun _ => Except.ok demoPrivateKey) ∧
      Generate (fun _ => Except.ok demoPrivateKey) ⟨92, rsa.zeroPrivateKey, false⟩
        = (demoKey, none) ∧
      ∃ (n e : Nat) (s : GoString),
        demoKey.Key.PublicKey.N = some (n : Int) ∧ demoKey.Key.PublicKey.E = (e : Int) ∧
        GetPKHexString demoKey = Except.ok s ∧
        s = hex.EncodeToString (big.natBytes n) ++ colon :: hex.EncodeToString (big.natBytes e) ∧
        MatchesPKPattern s ∧ s.count colon = 1 :=
  ⟨demo_contract, rfl,
    GetPKHexString_matches_pattern _ demo_contract ⟨92, rsa.zeroPrivateKey, false⟩ demoKey rfl⟩

/-- C8: for two keys whose public halves are `(n1, e1)` and `(n2, e2)`, equal
results of `GetPKHexString` force `n1 = n2` and `e1 = e2`; and splitting the
result of the first at `':'` and hex-decoding each half gives back `n1` and
`e1`. -/
theorem GetPKHexString_injective (k1 k2 : Key) (n1 e1 n2 e2 : Nat)
    (hN1 : k1.Key.PublicKey.N = some (n1 : Int)) (hE1 : k1.Key.PublicKey.E = (e1 : Int))
    (hN2 : k2.Key.PublicKey.N = some (n2 : Int)) (hE2 : k2.Key.PublicKey.E = (e2 : Int)) :
    (GetPKHexString k1 = GetPKHexString k2 → n1 = n2 ∧ e1 = e2) ∧
      ∃ s, GetPKHexString k1 = Except.ok s ∧ parsePK s = some (n1, e1) := by
  have h1 := GetPKHexString_of_public k1 n1 e1 hN1 hE1
  have h2 := GetPKHexString_of_public k2 n2 e2 hN2 hE2
  have hp1 := parsePK_wire (big.natBytes n1) (big.natBytes e1)
  have hp2 := parsePK_wire (big.natBytes n2) (big.natBytes e2)
  rw [big.SetBytes_natBytes, big.SetBytes_natBytes] at hp1 hp2
  refine ⟨?_, _, h1, hp1⟩
  intro heq
  rw [h1, h2] at heq
  have hs := Except.ok.inj heq
  rw [hs, hp2] at hp1
  have hpair := Option.some.inj hp1
  exact ⟨(Prod.mk.inj hpair).1.symm, (Prod.mk.inj hpair).2.symm⟩

theorem GetPKHexString_injective_witness :
    demoKey.Key.PublicKey.N = some ((4951760154835678088235319297 : Nat) : Int) ∧
      demoKey.Key.PublicKey.E = ((65537 : Nat) : Int) ∧
      (⟨0, ⟨⟨some 4951760154835678088235319297, 65537⟩, none, []⟩, false⟩ : Key).Key.PublicKey.N
        = some ((4951760154835678088235319297 : Nat) : Int) ∧
      (⟨0, ⟨⟨some 4951760154835678088235319297, 65537⟩, none, []⟩, false⟩ : Key).Key.PublicKey.E
        = ((65537 : Nat) : Int) ∧
      (GetPKHexString demoKey
          = GetPKHexString ⟨0, ⟨⟨some 4951760154835678088235319297, 65537⟩, none, []⟩, false⟩ →
        4951760154835678088235319297 = 4951760154835678088235319297 ∧ 65537 = 65537) ∧
      ∃ s, GetPKHexString demoKey = Except.ok s ∧
        parsePK s = some (4951760154835678088235319297, 65537) :=
  ⟨rfl, rfl, rfl, rfl,
    GetPKHexString_injective demoKey
      ⟨0, ⟨⟨some 4951760154835678088235319297, 65537⟩, none, []⟩, false⟩
      4951760154835678088235319297 65537 4951760154835678088235319297 65537 rfl rfl rfl rfl⟩

/-- C10, as stated, fails: on the key `Key{BitSize: 2048}`, not generated and
without modulus, `GetPKHexString` panics with a nil-pointer dereference; no
not-generated error is returned. -/
theorem GetPKHexString_ungenerated_panics :
    (⟨2048, rsa.zeroPrivateKey, false⟩ : Key).generated = false ∧
      (⟨2048, rsa.zeroPrivateKey, false⟩ : Key).Key.PublicKey.N = none ∧
      GetPKHexString ⟨2048, rsa.zeroPrivateKey, false⟩
        = Except.error GoPanic.nilPointerDereference :=
  ⟨rfl, rfl, rfl⟩

/-- C10, amended: on every key without modulus `GetPKHexString` returns no
string and no error value, the call panics with a nil-pointer dereference; and
the result of `GetPKHexString` never depends on the `generated` flag. -/
theorem GetPKHexString_without_modulus (key : Key) (h : key.Key.PublicKey.N = none) :
    GetPKHexString key = Except.error GoPanic.nilPointerDereference ∧
      ∀ flag, GetPKHexString ⟨key.BitSize, key.Key, flag⟩ = GetPKHexString key := by
  refine ⟨?_, fun flag => rfl⟩
  simp [GetPKHexString, h]

theorem GetPKHexString_without_modulus_witness :
    emptyKey.Key.PublicKey.N = none ∧
      GetPKHexString emptyKey = Except.error GoPanic.nilPointerDereference ∧
      ∀ flag, GetPKHexString ⟨emptyKey.BitSize, emptyKey.Key, flag⟩ = GetPKHexString emptyKey :=
  ⟨rfl, GetPKHexString_without_modulus emptyKey rfl⟩

end formcrypt
